import Mathlib

/-!
Formal model of the `noiz` procedural-noise library.

Machine integers (`u32`) are modeled as `ℕ` with explicit reduction
modulo `2 ^ 32` where the source wraps; `f32` values are modeled as `ℚ`
(or `ℝ` where the source takes square roots), which is exact for every
concrete input used below.  Stateful Rust code (`&mut` parameters) is
modeled by explicit state passing.
-/

namespace Noiz

namespace Rng

/-- Modulus of the `u32` machine integers used throughout the RNG. -/
def U32 : ℕ := 2 ^ 32

/-- Constant `NoiseRng::KEY` from `rng.rs`. -/
def KEY : ℕ := 249222277

/-- First entry of `NoiseRng::COEFFICIENT_KEYS`. -/
def COEFF0 : ℕ := 189221569

/-- Second entry of `NoiseRng::COEFFICIENT_KEYS`. -/
def COEFF1 : ℕ := 139217773

/-- Third entry of `NoiseRng::COEFFICIENT_KEYS`. -/
def COEFF2 : ℕ := 149243933

/-- Model of `NoiseRng::rand_u32` from `rng.rs`: the input (already collapsed
to a `u32`) is salted with the seed and mixed by three wrapping
multiplications and xors. -/
def rand_u32 (seed input : ℕ) : ℕ :=
  let i := input % U32
  let s := seed % U32
  let a := ((i ^^^ s) * KEY) % U32
  let b := ((a ^^^ COEFF2) * COEFF1) % U32
  let c := ((b ^^^ COEFF0) * COEFF2) % U32
  c ^^^ b

/-- Mantissa-width value extracted by `NoiseRng::any_unorm_with_entropy`:
with `fraction_bits = 23`, `float_size = 32` and `precision = 24`, the
code computes `bits >> (32 - 24)`. -/
def any_unorm_value (bits : ℕ) : ℕ := (bits % U32) >>> 8

/-- Scale `1f32 / ((1u32 << 24) as f32)` of `any_unorm_with_entropy`.
This is a power of two, so the `f32` constant is exact. -/
def unorm_scale : ℚ := 1 / 2 ^ 24

/-- Float produced by `NoiseRng::any_unorm_with_entropy` (first component).
Since the value is below `2 ^ 24` it is exactly representable in `f32`
and the multiplication by a power of two is exact, so the `ℚ` model
agrees bit-for-bit with the `f32` computation. -/
def any_unorm (bits : ℕ) : ℚ := unorm_scale * any_unorm_value bits

/-- Entropy byte returned by `any_unorm_with_entropy`: `bits as u8`. -/
def any_entropy (bits : ℕ) : ℕ := bits % 2 ^ 8

/-- Float produced by `NoiseRng::any_snorm_with_entropy`: the code xors
`(entropy as u32) << 31` into the bit pattern of the unorm, i.e. it flips
the IEEE-754 sign bit exactly when the low entropy bit is set; on the
value level this negates the number and otherwise leaves it unchanged. -/
def any_snorm (bits : ℕ) : ℚ :=
  if any_entropy bits % 2 = 1 then -(any_unorm bits) else any_unorm bits

/-- Model of `NoiseRng::rand_unorm`. -/
def rand_unorm (seed input : ℕ) : ℚ := any_unorm (rand_u32 seed input)

/-- Model of `NoiseRng::rand_snorm`. -/
def rand_snorm (seed input : ℕ) : ℚ := any_snorm (rand_u32 seed input)

theorem any_unorm_value_lt (bits : ℕ) : any_unorm_value bits < 2 ^ 24 := by
  unfold any_unorm_value
  rw [Nat.shiftRight_eq_div_pow]
  have h : bits % U32 < U32 := Nat.mod_lt _ (by norm_num [U32])
  exact Nat.div_lt_of_lt_mul (by simp only [U32] at h ⊢; omega)

theorem any_unorm_nonneg (bits : ℕ) : 0 ≤ any_unorm bits := by
  unfold any_unorm unorm_scale
  positivity

theorem any_unorm_lt_one (bits : ℕ) : any_unorm bits < 1 := by
  have h := any_unorm_value_lt bits
  unfold any_unorm unorm_scale
  have hq : (any_unorm_value bits : ℚ) < 2 ^ 24 := by exact_mod_cast h
  have h24 : (0:ℚ) < 2 ^ 24 := by norm_num
  calc 1 / 2 ^ 24 * (any_unorm_value bits : ℚ)
      < 1 / 2 ^ 24 * 2 ^ 24 := by
        exact mul_lt_mul_of_pos_left hq (by norm_num)
    _ = 1 := by norm_num

/-- C7: for every `u32` input `bits`, `NoiseRng::any_unorm bits` lies in
`[0, 1)` and `NoiseRng::any_snorm bits` lies in `(-1, 1)` (the sign coming
from a spare entropy bit, not a `2x - 1` remap); consequently `rand_unorm`
and `rand_snorm` satisfy the same range bounds for every input and seed. -/
theorem unorm_snorm_ranges :
    ∀ bits seed input : ℕ,
      (0 ≤ any_unorm bits ∧ any_unorm bits < 1) ∧
      (-1 < any_snorm bits ∧ any_snorm bits < 1) ∧
      (0 ≤ rand_unorm seed input ∧ rand_unorm seed input < 1) ∧
      (-1 < rand_snorm seed input ∧ rand_snorm seed input < 1) := by
  have key : ∀ b : ℕ, (0 ≤ any_unorm b ∧ any_unorm b < 1) ∧
      (-1 < any_snorm b ∧ any_snorm b < 1) := by
    intro b
    have h0 := any_unorm_nonneg b
    have h1 := any_unorm_lt_one b
    refine ⟨⟨h0, h1⟩, ?_⟩
    unfold any_snorm
    split
    · constructor
      · linarith
      · linarith
    · constructor
      · linarith
      · exact h1
  intro bits seed input
  exact ⟨(key bits).1, (key bits).2, (key (rand_u32 seed input)).1,
    (key (rand_u32 seed input)).2⟩

end Rng

namespace Curves

/-- Model of `Smoothstep::sample_unchecked` from `curves.rs`:
`t * t * (t * (-2.0) + 3.0)`. -/
def smoothstepSample (t : ℚ) : ℚ := t * t * (t * (-2) + 3)

/-- C6: `Smoothstep`'s sample returns exactly `0` at `t = 0` and exactly
`1` at `t = 1` (these `f32` computations are exact), and is monotonic
non-decreasing over `[0, 1]`. -/
theorem smoothstep_endpoints_and_monotone :
    smoothstepSample 0 = 0 ∧ smoothstepSample 1 = 1 ∧
    ∀ a b : ℚ, 0 ≤ a → a ≤ b → b ≤ 1 → smoothstepSample a ≤ smoothstepSample b := by
  refine ⟨by norm_num [smoothstepSample], by norm_num [smoothstepSample], ?_⟩
  intro a b ha hab hb
  have ha1 : a ≤ 1 := hab.trans hb
  have hb0 : 0 ≤ b := ha.trans hab
  have hd : 0 ≤ b - a := sub_nonneg.2 hab
  have h1 : 0 ≤ (b - a) * (a * (1 - a)) :=
    mul_nonneg hd (mul_nonneg ha (sub_nonneg.2 ha1))
  have h2 : 0 ≤ (b - a) * (b * (1 - b)) :=
    mul_nonneg hd (mul_nonneg hb0 (sub_nonneg.2 hb))
  have h3 : 0 ≤ (b - a) * (a * (1 - b)) :=
    mul_nonneg hd (mul_nonneg ha (sub_nonneg.2 hb))
  have h4 : 0 ≤ (b - a) * (b * (1 - a)) :=
    mul_nonneg hd (mul_nonneg hb0 (sub_nonneg.2 ha1))
  unfold smoothstepSample
  nlinarith [h1, h2, h3, h4]

/-- Witness for C6: the monotonicity clause applied at the concrete
points `1/4` and `3/4`. -/
theorem smoothstep_monotone_witness :
    smoothstepSample (1/4) ≤ smoothstepSample (3/4) :=
  smoothstep_endpoints_and_monotone.2.2 (1/4) (3/4) (by norm_num) (by norm_num)
    (by norm_num)

end Curves

namespace CellNoise

/-- Model of `HybridLength::length_ordering` for `Vec2` from `cell_noise.rs`:
`vec.length_squared() + vec.abs().element_sum()`. -/
def hybridLengthOrdering (v : ℚ × ℚ) : ℚ :=
  (v.1 * v.1 + v.2 * v.2) + (|v.1| + |v.2|)

/-- Model of `HybridLength::length_of` for `Vec2`: it returns the ordering
unchanged. -/
def hybridLengthOf (v : ℚ × ℚ) : ℚ := hybridLengthOrdering v

/-- Model of `HybridLength::max_for_element_max` for `Vec2` (`$d = 2.0`):
the active code is `element_max * 2.0 * element_max * $d`, while the
commented-out line above it reads
`element_max * element_max * $d + element_max * $d`. -/
def hybridMaxForElementMax (element_max : ℚ) : ℚ :=
  element_max * 2 * element_max * 2

/-- C5 (failing input): with `element_max = 1/2` every component of the
vector `(1/2, 1/2)` has absolute value at most `element_max`, yet
`HybridLength::length_of` returns `3/2`, strictly exceeding
`max_for_element_max (1/2) = 1`.  All the `f32` operations involved are
exact on these dyadic inputs, so the `ℚ` computation matches the code
bit-for-bit.  This contradicts the `LengthFunction::max_for_element_max`
documentation in `cell_noise.rs`. -/
theorem hybridLength_bound_violation :
    |(1/2 : ℚ)| ≤ 1/2 ∧
    hybridLengthOf (1/2, 1/2) = 3/2 ∧
    hybridMaxForElementMax (1/2) = 1 ∧
    hybridMaxForElementMax (1/2) < hybridLengthOf (1/2, 1/2) := by
  have habs : |(1/2 : ℚ)| = 1/2 := abs_of_pos (by norm_num)
  refine ⟨by rw [habs], ?_, by norm_num [hybridMaxForElementMax], ?_⟩ <;>
    norm_num [hybridLengthOf, hybridLengthOrdering, hybridMaxForElementMax, habs]

/-- Gradient table `GRADIENT_TABLE` from `cell_noise.rs`: 32 `Vec4`
entries whose components are only `-1`, `0` and `1`. -/
def GRADIENT_TABLE : List (ℚ × ℚ × ℚ × ℚ) :=
  [ (0, -1, -1, -1), (0, 1, -1, -1), (-1, 0, -1, -1), (1, 0, -1, -1),
    (0, -1, 1, -1), (0, 1, 1, -1), (-1, 0, 1, -1), (1, 0, 1, -1),
    (1, 1, 0, -1), (-1, 1, 0, -1), (1, -1, 0, -1), (-1, -1, 0, -1),
    (0, -1, -1, 1), (0, 1, -1, 1), (-1, 0, -1, 1), (1, 0, -1, 1),
    (0, -1, 1, 1), (0, 1, 1, 1), (-1, 0, 1, 1), (1, 0, 1, 1),
    (1, 1, 0, 1), (-1, 1, 0, 1), (1, -1, 0, 1), (-1, -1, 0, 1),
    (1, 1, 1, 0), (1, 1, -1, 0), (1, -1, 1, 0), (1, -1, -1, 0),
    (-1, 1, 1, 0), (-1, 1, -1, 0), (-1, -1, 1, 0), (-1, -1, -1, 0) ]

/-- Table index used by `QuickGradients::get_gradient` for `Vec2`:
`seed >> 30` on a `u32` seed. -/
def quickGradientIndexVec2 (seed : ℕ) : ℕ := (seed % Rng.U32) >>> 30

/-- Table index used by `QuickGradients::get_gradient` for `Vec3` and
`Vec3A`: `seed >> 28` on a `u32` seed. -/
def quickGradientIndexVec3 (seed : ℕ) : ℕ := (seed % Rng.U32) >>> 28

/-- Table index used by `QuickGradients::get_gradient` for `Vec4`:
`seed >> 27` on a `u32` seed. -/
def quickGradientIndexVec4 (seed : ℕ) : ℕ := (seed % Rng.U32) >>> 27

theorem u32_shift_bound (s k m : ℕ) (hkm : 2 ^ 32 ≤ 2 ^ k * m) :
    (s % Rng.U32) >>> k < m := by
  rw [Nat.shiftRight_eq_div_pow]
  have h : s % Rng.U32 < 2 ^ 32 := Nat.mod_lt _ (by norm_num [Rng.U32])
  exact Nat.div_lt_of_lt_mul (lt_of_lt_of_le h hkm)

/-- C9: every unchecked `GRADIENT_TABLE` lookup in `QuickGradients` is in
bounds for every `u32` seed: the index is below `4` for `Vec2`, below `16`
for `Vec3`/`Vec3A` and below `32` for `Vec4`, and the table has exactly
32 entries. -/
theorem quickGradients_indices_in_bounds :
    ∀ seed : ℕ,
      GRADIENT_TABLE.length = 32 ∧
      quickGradientIndexVec2 seed < 4 ∧
      quickGradientIndexVec3 seed < 16 ∧
      quickGradientIndexVec4 seed < 32 ∧
      quickGradientIndexVec2 seed < GRADIENT_TABLE.length ∧
      quickGradientIndexVec3 seed < GRADIENT_TABLE.length ∧
      quickGradientIndexVec4 seed < GRADIENT_TABLE.length := by
  intro seed
  have hlen : GRADIENT_TABLE.length = 32 := by rfl
  have h2 : quickGradientIndexVec2 seed < 4 :=
    u32_shift_bound seed 30 4 (by norm_num)
  have h3 : quickGradientIndexVec3 seed < 16 :=
    u32_shift_bound seed 28 16 (by norm_num)
  have h4 : quickGradientIndexVec4 seed < 32 :=
    u32_shift_bound seed 27 32 (by norm_num)
  exact ⟨hlen, h2, h3, h4, by omega, by omega, by omega⟩

end CellNoise

namespace Lib

/-- Model of `RngContext` from `rng.rs`: a running seed (`NoiseRng`) and
an entropy word, both `u32`. -/
structure RngContext where
  rng : ℕ
  entropy : ℕ

/-- Model of `Noise<N>` from `lib.rs`, with the wrapped `NoiseFunction`
represented by its `evaluate` method: a function from an input and the
threaded `RngContext` state (the `&mut` reference) to an output and an
updated state.  The input space is instantiated at the scalar vector
space, modeled by `ℚ`. -/
structure Noise (O : Type) where
  noise : ℚ → RngContext → O × RngContext
  seed : RngContext
  frequency : ℚ

/-- Model of `Sampleable::sample_raw` for `Noise<N>` (`lib.rs`): a fresh
local copy of the stored seed is made (`let mut seeds = self.seed`), the
wrapped function is evaluated at `loc * self.frequency`, and the mutated
local context is dropped; `self` is never mutated. -/
def sampleRaw {O : Type} (n : Noise O) (loc : ℚ) : O :=
  let seeds := n.seed
  (n.noise (loc * n.frequency) seeds).1

/-- A session of consecutive `sample_raw` calls against the same shared
(`&self`) noise value, in order. -/
def sampleSession {O : Type} (n : Noise O) : List ℚ → List O
  | [] => []
  | p :: ps => sampleRaw n p :: sampleSession n ps

theorem sampleSession_eq_map {O : Type} (n : Noise O) (ps : List ℚ) :
    sampleSession n ps = ps.map (sampleRaw n) := by
  induction ps with
  | nil => rfl
  | cons p ps ih => simp [sampleSession, ih]

/-- C1: sampling is deterministic and free of cross-sample state: the
output a session produces for a coordinate `p` is independent of every
sample made before it (whatever it was), so sampling twice at the same
`p` yields bit-identical output; `sample_for` and `sample_dyn` only
convert this raw result. -/
theorem sample_raw_deterministic {O : Type} (n : Noise O) (ps qs : List ℚ) (p : ℚ) :
    (sampleSession n (ps ++ [p])).getLast? = (sampleSession n (qs ++ [p])).getLast? := by
  simp [sampleSession_eq_map]

end Lib

namespace Layering

/-- Model of `PersistenceWeights` from `layering.rs`. -/
structure PersistenceWeights where
  persistence : ℚ
  next : ℚ
  deriving DecidableEq

/-- Model of `PersistenceWeights::next_weight`: returns the current
weight and multiplies the stored next weight by the persistence. -/
def nextWeight (w : PersistenceWeights) : ℚ × PersistenceWeights :=
  (w.next, ⟨w.persistence, w.next * w.persistence⟩)

/-- Model of `Persistence::start_weights`: the first weight is the fixed
constant `1000.0`. -/
def startWeights (persistence : ℚ) : PersistenceWeights :=
  ⟨persistence, 1000⟩

/-- Model of the `Normed<T>` result context from `layering.rs`, at the
scalar instantiation `T = ℚ`. -/
structure Normed where
  total_weights : ℚ

/-- Model of `Normed::default`: zero accumulated weight. -/
def normedDefault : Normed := ⟨0⟩

/-- Model of `Normed::expect_weight`. -/
def expectWeight (c : Normed) (weight : ℚ) : Normed :=
  ⟨c.total_weights + weight⟩

/-- Model of `NormedResult<T>` at `T = ℚ`. -/
structure NormedResult where
  total_weights : ℚ
  running_total : ℚ

/-- Model of `Normed::start_result`. -/
def startResult (c : Normed) : NormedResult :=
  ⟨c.total_weights, 0⟩

/-- Model of `NormedResult::include_value`:
`running_total = running_total + value * weight`. -/
def includeValue (r : NormedResult) (value weight : ℚ) : NormedResult :=
  ⟨r.total_weights, r.running_total + value * weight⟩

/-- Model of `NormedResult::finish`: `running_total / total_weights`
(this result type ignores the rng argument). -/
def finishNormed (r : NormedResult) : ℚ :=
  r.running_total / r.total_weights

/-- Model of `Octave::<T>::do_noise_op` from `layering.rs` for a wrapped
noise function `f` producing a scalar into a `NormedResult`: evaluate the
wrapped function at the working location, include its value at the next
weight, then re-seed the rng.  The `NoiseRng::re_seed` body is outside
the modeled sources, so it is a parameter here; the finished value never
depends on it. -/
def octaveDo {I : Type} (f : I → ℕ → ℚ × ℕ) (reSeed : ℕ → ℕ)
    (seeds : ℕ) (loc : I) (r : NormedResult) (w : PersistenceWeights) :
    ℕ × NormedResult × PersistenceWeights :=
  let fr := f loc seeds
  let wr := nextWeight w
  (reSeed fr.2, includeValue r fr.1 wr.1, wr.2)

/-- Model of `Octave::<T>::prepare`:
`result_context.expect_weight(weights.next_weight())`. -/
def octavePrepare (c : Normed) (w : PersistenceWeights) :
    Normed × PersistenceWeights :=
  let wr := nextWeight w
  (expectWeight c wr.1, wr.2)

/-- Model of `LayeredNoise::new` for a single `Octave` over the `Normed`
context: the prepare pass registers the octave's weight into the stored
result context. -/
def layeredNewContext (resultSettings : Normed) (persistence : ℚ) : Normed :=
  (octavePrepare resultSettings (startWeights persistence)).1

/-- Model of `LayeredNoise::evaluate` (the `DONT_FINISH = false` impl in
`layering.rs`) for a single `Octave`: fresh weights from the stored
settings, fresh result from the stored context, one noise op, then
`finish`. -/
def layeredEvalSingle {I : Type} (f : I → ℕ → ℚ × ℕ) (reSeed : ℕ → ℕ)
    (ctx : Normed) (persistence : ℚ) (input : I) (seeds : ℕ) : ℚ :=
  let w := startWeights persistence
  let r := startResult ctx
  let step := octaveDo f reSeed seeds input r w
  finishNormed step.2.1

/-- C3: for a `LayeredNoise` of exactly one `Octave` with the (default)
`Normed` result context, the finished output equals the octave's raw
unweighted output for any persistence value: the single weight `1000` is
both the only included weight and the whole total, so `(v * w) / w`
cancels (exactly, in this `ℚ` model of the `f32` arithmetic). -/
theorem normed_single_octave_cancels {I : Type} :
    ∀ (f : I → ℕ → ℚ × ℕ) (reSeed : ℕ → ℕ) (persistence : ℚ) (input : I) (seeds : ℕ),
      layeredEvalSingle f reSeed (layeredNewContext normedDefault persistence)
        persistence input seeds = (f input seeds).1 := by
  intro f reSeed p input seeds
  unfold layeredEvalSingle layeredNewContext octavePrepare octaveDo
    startWeights nextWeight startResult includeValue expectWeight
    finishNormed normedDefault
  norm_num

/-- Octave-operation composition trees built from `Octave`, tuples of
operations (represented as nested sequencing of the components in
order), and `FractalOctaves`, as in `layering.rs` and `lib.rs`. -/
inductive Op where
  | octave : Op
  | seq : Op → Op → Op
  | fractal : ℕ → Op → Op

/-- Repetition of a weight-consumption trace: runs `step` the given
number of times, threading the weight generator and concatenating the
consumed weights in order. -/
def repTrace (step : PersistenceWeights → List ℚ × PersistenceWeights) :
    ℕ → PersistenceWeights → List ℚ × PersistenceWeights
  | 0, w => ([], w)
  | n + 1, w =>
      let r := step w
      let rest := repTrace step n r.2
      (r.1 ++ rest.1, rest.2)

/-- Weights consumed (in order) from the shared `NoiseWeights` generator
by the prepare pass of an operation tree: `Octave::prepare` consumes one
weight via `expect_weight(weights.next_weight())`; a tuple prepares its
components in order; `FractalOctaves::prepare` prepares its inner
operation once per iteration of `for _ in 0..self.octaves`. -/
def prepTrace : Op → PersistenceWeights → List ℚ × PersistenceWeights
  | .octave => fun w =>
      let wr := nextWeight w
      ([wr.1], wr.2)
  | .seq a b => fun w =>
      let ra := prepTrace a w
      let rb := prepTrace b ra.2
      (ra.1 ++ rb.1, rb.2)
  | .fractal n inner => fun w => repTrace (prepTrace inner) n w

/-- Weights consumed (in order) by the evaluate pass
(`NoiseOperationFor::do_noise_op`): `Octave::do_noise_op` consumes one
weight via `include_value(.., weights.next_weight())`; a tuple evaluates
its components in order; `FractalOctaves::do_noise_op` runs its inner
operation once unconditionally and then `octaves - 1` further times via
`for _ in 1..self.octaves`. -/
def evalTrace : Op → PersistenceWeights → List ℚ × PersistenceWeights
  | .octave => fun w =>
      let wr := nextWeight w
      ([wr.1], wr.2)
  | .seq a b => fun w =>
      let ra := evalTrace a w
      let rb := evalTrace b ra.2
      (ra.1 ++ rb.1, rb.2)
  | .fractal n inner => fun w =>
      let r := evalTrace inner w
      let rest := repTrace (evalTrace inner) (n - 1) r.2
      (r.1 ++ rest.1, rest.2)

/-- C2 (failing input): for `FractalOctaves { octaves: 0 }` wrapping one
`Octave`, with `Persistence(1/2)` weights, the prepare pass consumes no
weights but the evaluate pass consumes one weight (`1000`):
`do_noise_op` runs the inner octave once even though `octaves = 0`,
while `prepare` runs it zero times, so the weight sequences of the two
passes differ in count and total. -/
theorem fractal_zero_octaves_trace_mismatch :
    (prepTrace (.fractal 0 .octave) (startWeights (1/2))).1 = [] ∧
    (evalTrace (.fractal 0 .octave) (startWeights (1/2))).1 = [1000] ∧
    (prepTrace (.fractal 0 .octave) (startWeights (1/2))).1.length ≠
      (evalTrace (.fractal 0 .octave) (startWeights (1/2))).1.length := by
  refine ⟨by decide, by decide, by decide⟩

end Layering

namespace Segments

/-- Model of `SegmentedPoint<Vec2>` from `segments.rs`, with `Vec2`
modeled as `ℚ × ℚ`. -/
structure SegmentedPoint where
  rough_id : ℕ
  offset : ℚ × ℚ
  deriving DecidableEq

/-- Model of `GridSquare<Vec2, IVec2>` from `segments.rs`. -/
structure GridSquare where
  floored : ℤ × ℤ
  offset : ℚ × ℚ

/-- Bit-cast of an `i32` to a `u32` (componentwise `IVec2::as_uvec2`):
two's-complement reduction modulo `2 ^ 32`. -/
def i32AsU32 (x : ℤ) : ℕ := (x % (2 ^ 32 : ℤ)).toNat

/-- Model of `NoiseRngInput::collapse_for_rng` for `IVec2` (through
`UVec2`): `x.wrapping_add(y.wrapping_mul(COEFFICIENT_KEYS[0]))`. -/
def collapseIVec2 (v : ℤ × ℤ) : ℕ :=
  (i32AsU32 v.1 + (i32AsU32 v.2 * Rng.COEFF0) % Rng.U32) % Rng.U32

/-- Model of `GridSquare::point_at_offset` from `segments.rs`: the rough
id is the rng hash of the corner lattice coordinate
`self.floored + offset`, and the `offset` field is `self.offset` — the
same value for every corner. -/
def pointAtOffset (g : GridSquare) (rng : ℕ) (off : ℤ × ℤ) : SegmentedPoint :=
  { rough_id := Rng.rand_u32 rng (collapseIVec2 (g.floored.1 + off.1, g.floored.2 + off.2))
    offset := g.offset }

/-- Model of `DomainSegment::iter_points` for `GridSquare<Vec2, IVec2>`
(through `corners_map` with the identity closure): the four corners at
integer offsets `(0,0), (0,1), (1,0), (1,1)`, in order. -/
def iterPoints (g : GridSquare) (rng : ℕ) : List SegmentedPoint :=
  [ pointAtOffset g rng (0, 0), pointAtOffset g rng (0, 1),
    pointAtOffset g rng (1, 0), pointAtOffset g rng (1, 1) ]

/-- C4 (failing input): for the interior sample point of the grid square
with `floored = (0, 0)` and fractional offset `(1/4, 1/2)` under rng
seed `0`, `iter_points` does yield exactly 4 corner points, but all four
carry the identical offset `(1/4, 1/2)` (the fractional part), not four
distinct per-corner offset vectors from the sample point to each corner,
contradicting the claim and the `SegmentedPoint::offset` documentation. -/
theorem gridSquare_iter_points_shared_offset :
    (iterPoints ⟨(0, 0), (1/4, 1/2)⟩ 0).length = 4 ∧
    (iterPoints ⟨(0, 0), (1/4, 1/2)⟩ 0).map SegmentedPoint.offset =
      [(1/4, 1/2), (1/4, 1/2), (1/4, 1/2), (1/4, 1/2)] ∧
    ¬ ((iterPoints ⟨(0, 0), (1/4, 1/2)⟩ 0).map SegmentedPoint.offset).Nodup := by
  refine ⟨rfl, rfl, ?_⟩
  intro h
  rw [show (iterPoints ⟨(0, 0), (1/4, 1/2)⟩ 0).map SegmentedPoint.offset =
      [((1:ℚ)/4, (1:ℚ)/2), (1/4, 1/2), (1/4, 1/2), (1/4, 1/2)] from rfl] at h
  simp at h

end Segments

namespace CellNoise

/-- Point handed to the cell-noise loops by `iter_points`: a rough id
and an offset in some vector space `V` (matching `CellPoint`). -/
structure CellPoint (V : Type) where
  rough_id : ℕ
  offset : V

/-- State of the point-selection loop in `PerLeastDistances::evaluate`:
the two least length orderings seen so far and their offsets.  The
orderings start at `f32::INFINITY`, modeled as `⊤` in `WithTop ℚ`. -/
structure LeastState (V : Type) where
  least : WithTop ℚ
  leastOff : V
  next : WithTop ℚ
  nextOff : V

/-- One iteration of the selection loop of `PerLeastDistances::evaluate`
(`cell_noise.rs`): a strictly smaller ordering displaces the least (the
old least sliding into second place); otherwise an ordering strictly
smaller than the second displaces only the second. -/
def leastStep {V : Type} (ord : V → ℚ) (s : LeastState V) (p : CellPoint V) :
    LeastState V :=
  let o : WithTop ℚ := (ord p.offset : ℚ)
  if o < s.least then ⟨o, p.offset, s.least, s.leastOff⟩
  else if o < s.next then ⟨s.least, s.leastOff, o, p.offset⟩
  else s

/-- Initial state of the selection loop: both orderings at infinity and
both offsets at `I::ZERO` (passed in as `z`). -/
def leastInit {V : Type} (z : V) : LeastState V := ⟨⊤, z, ⊤, z⟩

/-- The whole selection loop of `PerLeastDistances::evaluate` over the
iterated points. -/
def leastLoop {V : Type} (ord : V → ℚ) (pts : List (CellPoint V))
    (s : LeastState V) : LeastState V :=
  pts.foldl (leastStep ord) s

theorem leastStep_sound {V : Type} (ord : V → ℚ) (s : LeastState V)
    (p : CellPoint V) (h : s.least ≤ s.next) :
    (leastStep ord s p).least ≤ (leastStep ord s p).next ∧
    (leastStep ord s p).least = min s.least (ord p.offset : WithTop ℚ) := by
  unfold leastStep
  by_cases h1 : (ord p.offset : WithTop ℚ) < s.least
  · simp only [h1, if_true]
    exact ⟨le_of_lt h1, (min_eq_right (le_of_lt h1)).symm⟩
  · by_cases h2 : (ord p.offset : WithTop ℚ) < s.next
    · simp only [h1, h2, if_false, if_true]
      exact ⟨not_lt.1 h1, (min_eq_left (not_lt.1 h1)).symm⟩
    · simp only [h1, h2, if_false]
      exact ⟨h, (min_eq_left (not_lt.1 h1)).symm⟩

theorem leastLoop_invariant {V : Type} (ord : V → ℚ) (pts : List (CellPoint V)) :
    ∀ s : LeastState V, s.least ≤ s.next →
      (leastLoop ord pts s).least ≤ (leastLoop ord pts s).next ∧
      (leastLoop ord pts s).least =
        pts.foldl (fun m p => min m (ord p.offset : WithTop ℚ)) s.least := by
  induction pts with
  | nil => exact fun s h => ⟨h, rfl⟩
  | cons p pts ih =>
    intro s h
    have hs := leastStep_sound ord s p h
    have := ih (leastStep ord s p) hs.1
    refine ⟨this.1, ?_⟩
    simpa [leastLoop, hs.2] using this.2

/-- C10: after the point-selection loop of `PerLeastDistances::evaluate`
over any sequence of cell points, `least_length_order` is at most
`next_least_length_order`, and `least_length_order` is the minimum
length ordering of all iterated points, so the distance reported as
nearest never exceeds the one reported as second nearest when handed to
the `WorleyMode`. -/
theorem perLeastDistances_selection_invariant {V : Type} (z : V)
    (ord : V → ℚ) (pts : List (CellPoint V)) :
    (leastLoop ord pts (leastInit z)).least ≤ (leastLoop ord pts (leastInit z)).next ∧
    (leastLoop ord pts (leastInit z)).least =
      pts.foldl (fun m p => min m (ord p.offset : WithTop ℚ)) ⊤ :=
  leastLoop_invariant ord pts (leastInit z) le_rfl

/-- Componentwise subtraction on the real model of `Vec2`. -/
def vsub (a b : ℝ × ℝ) : ℝ × ℝ := (a.1 - b.1, a.2 - b.2)

/-- Dot product on the real model of `Vec2`. -/
def vdot (a b : ℝ × ℝ) : ℝ := a.1 * b.1 + a.2 * b.2

/-- Vector-times-scalar multiplication on the real model of `Vec2`. -/
def vsmul (v : ℝ × ℝ) (t : ℝ) : ℝ × ℝ := (v.1 * t, v.2 * t)

/-- Euclidean length on the real model of `Vec2` (square roots force the
`ℝ` model here). -/
noncomputable def vlength (v : ℝ × ℝ) : ℝ := Real.sqrt (vdot v v)

/-- Model of glam's `Vec2::try_normalize`, as called by the exact
`DistanceToEdge` evaluation: it returns `None` exactly when the
reciprocal length is not finite and positive — in real semantics, when
the vector is zero — and otherwise the vector scaled by the reciprocal
length. -/
noncomputable def tryNormalize (v : ℝ × ℝ) : Option (ℝ × ℝ) :=
  if v = (0, 0) then none else some (vsmul v (vlength v)⁻¹)

section
open Classical

/-- One iteration of the edge-search loop of the exact
(`APPROXIMATE = false`) `DistanceToEdge::evaluate` in `cell_noise.rs`,
parameterized by the `length_ordering` of `L` and the nearest offset
found by the first loop: a difference vector that fails `try_normalize`
is skipped (`continue`); otherwise the candidate edge vector is computed
and kept when its ordering is the new least. -/
noncomputable def edgeStep (ordering : ℝ × ℝ → ℝ) (nearestOffset : ℝ × ℝ)
    (acc : (ℝ × ℝ) × WithTop ℝ) (p : CellPoint (ℝ × ℝ)) :
    (ℝ × ℝ) × WithTop ℝ :=
  let toOtherPoint := vsub nearestOffset p.offset
  match tryNormalize toOtherPoint with
  | none => acc
  | some dirToOther =>
      let nearestTraveledTowardsOther := vsmul dirToOther (vdot dirToOther nearestOffset)
      let nearestTraveledToEdge := vsmul toOtherPoint (1/2)
      let sampleToThisEdge := vsub nearestTraveledToEdge nearestTraveledTowardsOther
      if (ordering sampleToThisEdge : WithTop ℝ) < acc.2
      then (sampleToThisEdge, (ordering sampleToThisEdge : ℝ))
      else acc

/-- The whole edge-search loop of the exact `DistanceToEdge::evaluate`
over the iterated points (the accumulator starts at
`(Vec2::ZERO, f32::INFINITY)`, with infinity modeled as `⊤`). -/
noncomputable def edgeLoop (ordering : ℝ × ℝ → ℝ) (nearestOffset : ℝ × ℝ)
    (pts : List (CellPoint (ℝ × ℝ))) (acc : (ℝ × ℝ) × WithTop ℝ) :
    (ℝ × ℝ) × WithTop ℝ :=
  pts.foldl (edgeStep ordering nearestOffset) acc

/-- C8: in the exact (non-approximate) `DistanceToEdge` evaluation, any
candidate point whose difference vector from the nearest point has zero
length (so `try_normalize` returns `None`) is skipped and contributes
nothing: the edge loop over the points with such a point inserted
anywhere equals the loop without it, while the remaining points are
still considered.  In this real-valued model no NaN can arise at all;
the skip is what prevents the `0 * (1/0)`-style contribution the `f32`
code would otherwise produce through this branch. -/
theorem distanceToEdge_skips_zero_offset (ordering : ℝ × ℝ → ℝ)
    (nearestOffset : ℝ × ℝ) (pts1 pts2 : List (CellPoint (ℝ × ℝ)))
    (q : CellPoint (ℝ × ℝ)) (acc : (ℝ × ℝ) × WithTop ℝ)
    (hq : q.offset = nearestOffset) :
    edgeLoop ordering nearestOffset (pts1 ++ q :: pts2) acc =
      edgeLoop ordering nearestOffset (pts1 ++ pts2) acc := by
  unfold edgeLoop
  rw [List.foldl_append, List.foldl_append, List.foldl_cons]
  congr 1
  unfold edgeStep
  rw [hq]
  simp [tryNormalize, vsub]

/-- Witness for C8 at a concrete input: inserting the nearest point
itself (difference vector zero) into the edge loop leaves the result
unchanged while the other point is still processed. -/
theorem distanceToEdge_skips_zero_offset_witness :
    edgeLoop (fun v => v.1 * v.1 + v.2 * v.2) (1, 0)
        [⟨5, (1, 0)⟩, ⟨7, (3, 0)⟩] ((0, 0), ⊤) =
      edgeLoop (fun v => v.1 * v.1 + v.2 * v.2) (1, 0)
        [⟨7, (3, 0)⟩] ((0, 0), ⊤) :=
  distanceToEdge_skips_zero_offset (fun v => v.1 * v.1 + v.2 * v.2) (1, 0)
    [] [⟨7, (3, 0)⟩] ⟨5, (1, 0)⟩ ((0, 0), ⊤) rfl

end

end CellNoise

end Noiz
